import Mathlib

/-!
# Verification of the odgi-ffi query layer

Shallow embedding of `src/odgi.cpp`, a read-only query layer over a pangenome
variation graph.  The graph store (`odgi::graph_t`) is an external collaborator
(spec §1, §6): its primitive capabilities are modelled here from the spec's
data model — nodes with lengths, an edge list over oriented handles, and named
paths that are ordered lists of oriented steps.  The query functions themselves
(`graph_project`, `graph_get_successors`, `graph_get_predecessors`,
`graph_get_next_node_on_path`, `graph_get_path_length`,
`graph_get_paths_on_edge`, `load_graph`) are translated from the C++ source.
-/

/-- A handle: a node id together with an orientation bit (spec §3).
`isRev = false` is the forward strand.  Mirrors `odgi::handle_t` as produced
by `get_handle(node_id, is_reverse)`. -/
structure Handle where
  id : Nat
  isRev : Bool
deriving DecidableEq

/-- Modelled from the spec: the external graph store (spec §2 "Graph Store",
§3, §6).  `nodes` is the set of node ids present, `nodeLen` the store's
`get_length` (orientation independent), `edges` the store's edge set — an
ordered relation between two handles, "the end of handle A connects to the
start of handle B" (§3) — and `paths` the named paths, each an ordered list
of steps in path order (§6 "iterate-steps-in-path (in path order)"). -/
structure Graph where
  nodes : List Nat
  nodeLen : Nat → Nat
  edges : List (Handle × Handle)
  paths : List (String × List Handle)

/-- The store's `has_node` existence check (spec §6). -/
def hasNode (g : Graph) (n : Nat) : Bool :=
  g.nodes.contains n

/-- The store's path lookup by name: `has_path` / `get_path_handle` combined,
returning the path's step list (spec §6 "handle-by-name"). -/
def pathSteps (g : Graph) (name : String) : Option (List Handle) :=
  (g.paths.find? (fun p => p.1 == name)).map (fun p => p.2)

/-- The store's `has_path` (spec §6). -/
def hasPath (g : Graph) (name : String) : Bool :=
  (pathSteps g name).isSome

/-- `odgi::PathPosition`: (node id, offset within the node's forward-strand
sequence, is-forward flag) (spec §3). -/
structure PathPosition where
  node_id : Nat
  offset : Nat
  is_forward : Bool
deriving DecidableEq

/-- An edge descriptor as pushed by `graph_get_successors` /
`graph_get_predecessors`: spec §3 reads the three fields as (neighbor node id,
is-neighbor-reached-via-forward-edge flag, is-neighbor-itself-forward flag);
the C++ fills them positionally. -/
structure Edge where
  id : Nat
  viaForward : Bool
  neighborForward : Bool
deriving DecidableEq

/-- Total length of a path, as computed by the linear scans in
`graph_project` and `graph_get_path_length`: the sum of `get_length` over the
handles of the path's steps (`src/odgi.cpp:42-46,173-177`). -/
def pathLen (g : Graph) : List Handle → Nat
  | [] => 0
  | h :: rest => g.nodeLen h.id + pathLen g rest

/-- Sum of the node lengths of the first `k` steps: the value of the running
counter `current_pos` when the scan in `graph_project` reaches step `k`. -/
def lenBefore (g : Graph) : List Handle → Nat → Nat
  | _, 0 => 0
  | [], _ + 1 => 0
  | h :: rest, k + 1 => g.nodeLen h.id + lenBefore g rest k

/-- The scan loop of `graph_project` (`src/odgi.cpp:52-74`): walk the steps in
order with running counter `cur`; at the first step whose span contains `pos`,
build the `PathPosition` — mirrored offset and negated strand flag for a
reverse-oriented handle, pass-through otherwise (`src/odgi.cpp:63-70`). -/
def projectLoop (g : Graph) (pos : Nat) : List Handle → Nat → Option PathPosition
  | [], _ => none
  | h :: rest, cur =>
    let nodeLen := g.nodeLen h.id
    if pos < cur + nodeLen then
      some ⟨h.id,
            if h.isRev then nodeLen - 1 - (pos - cur) else pos - cur,
            !h.isRev⟩
    else
      projectLoop g pos rest (cur + nodeLen)

/-- `graph_project` (`src/odgi.cpp:36-77`): fail when the path name is
unknown, compute the total path length by linear scan, fail when
`pos ≥ path_len`, otherwise scan for the step containing `pos`. -/
def graph_project (g : Graph) (name : String) (pos : Nat) : Option PathPosition :=
  match pathSteps g name with
  | none => none
  | some steps =>
    if pos < pathLen g steps then projectLoop g pos steps 0 else none

/-- `graph_get_node_len` (`src/odgi.cpp:84-87`): 0 for an unknown node. -/
def graph_get_node_len (g : Graph) (node_id : Nat) : Nat :=
  if hasNode g node_id then g.nodeLen node_id else 0

/-- `graph_get_path_length` (`src/odgi.cpp:168-179`): 0 for an unknown path,
otherwise the sum of step node lengths by linear scan. -/
def graph_get_path_length (g : Graph) (name : String) : Nat :=
  match pathSteps g name with
  | none => 0
  | some steps => pathLen g steps

/-- Modelled from the spec: the store's `follow_edges` in the outgoing
direction (spec §6 "follow-edges(handle, direction, visitor)"): the handles
`next` such that the edge (handle → next) is in the store's edge set. -/
def followEdgesOut (g : Graph) (h : Handle) : List Handle :=
  (g.edges.filter (fun e => e.1 == h)).map (fun e => e.2)

/-- Modelled from the spec: the store's `follow_edges` in the incoming
direction: the handles `prev` such that (prev → handle) is in the edge set. -/
def followEdgesIn (g : Graph) (h : Handle) : List Handle :=
  (g.edges.filter (fun e => e.2 == h)).map (fun e => e.1)

/-- `graph_get_successors` (`src/odgi.cpp:89-105`): empty for an unknown
node; otherwise outgoing edges of the forward handle, each pushed as
`{id, true, !is_reverse}`, followed by outgoing edges of the reverse handle
pushed as `{id, false, !is_reverse}`. -/
def graph_get_successors (g : Graph) (node_id : Nat) : List Edge :=
  if hasNode g node_id then
    (followEdgesOut g ⟨node_id, false⟩).map (fun nx => ⟨nx.id, true, !nx.isRev⟩)
      ++ (followEdgesOut g ⟨node_id, true⟩).map (fun nx => ⟨nx.id, false, !nx.isRev⟩)
  else []

/-- `graph_get_predecessors` (`src/odgi.cpp:107-123`): empty for an unknown
node; otherwise incoming edges of the forward handle, each pushed as
`{id, !is_reverse, true}`, followed by incoming edges of the reverse handle
pushed as `{id, !is_reverse, false}` (note the role reversal of the two
boolean fields relative to `graph_get_successors`, spec §4.4). -/
def graph_get_predecessors (g : Graph) (node_id : Nat) : List Edge :=
  if hasNode g node_id then
    (followEdgesIn g ⟨node_id, false⟩).map (fun pv => ⟨pv.id, !pv.isRev, true⟩)
      ++ (followEdgesIn g ⟨node_id, true⟩).map (fun pv => ⟨pv.id, !pv.isRev, false⟩)
  else []

/-- The scan loop of `graph_get_next_node_on_path` (`src/odgi.cpp:150-163`):
walk the steps in order; a step matches when its handle equals the target
node in either orientation; once matched, the next step's node id is the
answer, and a match on the final step leaves the `-1` sentinel. -/
def nextNodeLoop (n : Nat) : List Handle → Int
  | [] => -1
  | h :: rest =>
    if h == Handle.mk n false || h == Handle.mk n true then
      match rest with
      | [] => -1
      | h2 :: _ => Int.ofNat h2.id
    else nextNodeLoop n rest

/-- `graph_get_next_node_on_path` (`src/odgi.cpp:137-166`): `-1` when the
path or the node is unknown, otherwise the scan loop above. -/
def graph_get_next_node_on_path (g : Graph) (name : String) (node_id : Nat) : Int :=
  match pathSteps g name with
  | none => -1
  | some steps => if hasNode g node_id then nextNodeLoop node_id steps else -1

/-- The per-path collection of `graph_get_paths_on_edge`
(`src/odgi.cpp:197-205`) restricted to one path: one copy of the path's name
for every step whose node is `fromN` (in either orientation — the store
primitive for-each-step-on-handle is strand-agnostic, see
`collectOnEdge`) that has a next step whose handle equals `toH` exactly. -/
def edgeHits (fromN : Nat) (toH : Handle) (name : String) : List Handle → List String
  | [] => []
  | [_] => []
  | h :: h2 :: rest =>
    (if h.id == fromN && h2 == toH then [name] else []) ++ edgeHits fromN toH name (h2 :: rest)

/-- Modelled from the spec: the collection pass of `graph_get_paths_on_edge`
over every step on the from-node.  The store primitive
`for_each_step_on_handle` visits every step of the handle's *node*, in either
orientation (spec §4.5 on `paths_on_node`: "orientation-insensitive: checked
in forward orientation only, since membership is strand-independent"); the
C++ then keeps a step when it has a next step whose handle equals the to
handle (`src/odgi.cpp:198-202`) without re-checking the step's own
orientation, so only the from *node* is constrained here. -/
def collectOnEdge (fromN : Nat) (toH : Handle) : List (String × List Handle) → List String
  | [] => []
  | p :: rest => edgeHits fromN toH p.1 p.2 ++ collectOnEdge fromN toH rest

/-- `std::unique`'s inner walk (`src/odgi.cpp:216`): drop each element equal
to the most recently kept element `prev`. -/
def dedupFrom (prev : String) : List String → List String
  | [] => []
  | b :: rest => if b == prev then dedupFrom prev rest else b :: dedupFrom b rest

/-- Adjacent-duplicate removal, as `std::unique` + `erase` perform on the
sorted vector (`src/odgi.cpp:216`). -/
def dedupAdj : List String → List String
  | [] => []
  | a :: rest => a :: dedupFrom a rest

/-- `std::sort` on strings followed by `std::unique`/`erase`
(`src/odgi.cpp:215-216`): lexicographic ascending sort, then removal of
adjacent duplicates. -/
def sortDedup (l : List String) : List String :=
  dedupAdj (List.insertionSort (· ≤ ·) l)

/-- `graph_get_paths_on_edge` (`src/odgi.cpp:181-225`): empty when either
endpoint node is unknown; otherwise collect the name of every path step on
the from node whose successor step's handle equals the to handle exactly,
then sort and deduplicate. -/
def graph_get_paths_on_edge (g : Graph) (from_node : Nat) (from_is_forward : Bool)
    (to_node : Nat) (to_is_forward : Bool) : List String :=
  if hasNode g from_node && hasNode g to_node then
    sortDedup (collectOnEdge from_node ⟨to_node, !to_is_forward⟩ g.paths)
  else []

/-- The spec's description of `paths_on_edge` taken literally, for comparison
with `graph_get_paths_on_edge` (spec §4.5): one copy of the path's name for
every pair of consecutive steps whose handles *exactly match*
(from_node, from_orientation) immediately followed by
(to_node, to_orientation). -/
def exactHits (fromH toH : Handle) (name : String) : List Handle → List String
  | [] => []
  | [_] => []
  | h :: h2 :: rest =>
    (if h == fromH && h2 == toH then [name] else []) ++ exactHits fromH toH name (h2 :: rest)

/-- The claim's version of `graph_get_paths_on_edge`, built from the spec's
words: sorted, deduplicated names of paths containing two consecutive steps
whose handles exactly match the two requested handles. -/
def pathsOnEdgeExact (g : Graph) (from_node : Nat) (from_is_forward : Bool)
    (to_node : Nat) (to_is_forward : Bool) : List String :=
  if hasNode g from_node && hasNode g to_node then
    sortDedup ((g.paths.map
      (fun p => exactHits ⟨from_node, !from_is_forward⟩ ⟨to_node, !to_is_forward⟩ p.1 p.2)).flatten)
  else []

/-- Opaque bytes of a serialized graph resource; the format is owned by the
external store (spec §6 "Persisted state") and never inspected here. -/
def Content : Type := List Nat

/-- The wrapper returned by `load_graph` (`src/odgi_wrapper.hpp:8-10`). -/
structure OpaqueGraph where
  graph : Graph

/-- `load_graph` (`src/odgi.cpp:9-17`).  The file system and the store's
deserializer are external: `res` is `none` when the stream at the path cannot
be opened (`if (!in) return nullptr`), and `deserialize` — modelled from the
spec (§4.1: deserialization is all-or-nothing, producing a fully-formed graph
or a failure that "is propagated as the same load failure") — is `none` on a
failed deserialization. -/
def load_graph (deserialize : Content → Option Graph) (res : Option Content) :
    Option OpaqueGraph :=
  match res with
  | none => none
  | some c =>
    match deserialize c with
    | none => none
    | some g => some ⟨g⟩

/-- Concrete one-path graph used to instantiate the projection theorem:
node 7 of length 4, and a path "p" traversing it once in reverse. -/
def gW1 : Graph :=
  { nodes := [7], nodeLen := fun _ => 4, edges := [], paths := [("p", [⟨7, true⟩])] }

/-- Concrete graph with a path revisiting node 1 (length 3) twice. -/
def gW3 : Graph :=
  { nodes := [1], nodeLen := fun _ => 3, edges := [],
    paths := [("q", [⟨1, false⟩, ⟨1, false⟩])] }

/-- Concrete graph whose path "P" traverses node 1 in *reverse* and then
node 2 forward: the step pair does not exactly match the forward-forward
edge (1 → 2), yet the step is still on node 1. -/
def gC5 : Graph :=
  { nodes := [1, 2], nodeLen := fun _ => 1, edges := [],
    paths := [("P", [⟨1, true⟩, ⟨2, false⟩])] }

/-- Concrete graph whose path "w" visits node 1 in reverse and then node 2
forward. -/
def gW6 : Graph :=
  { nodes := [1, 2], nodeLen := fun _ => 1, edges := [],
    paths := [("w", [⟨1, true⟩, ⟨2, false⟩])] }

/-- Concrete graph with the single forward-forward edge (1 → 2). -/
def gW7 : Graph :=
  { nodes := [1, 2], nodeLen := fun _ => 1,
    edges := [(⟨1, false⟩, ⟨2, false⟩)], paths := [] }

/-- Concrete graph realizing spec Scenario A: path "chr1" is a forward
traversal of node 1 (length 4) followed by node 2 (length 6). -/
def gW8 : Graph :=
  { nodes := [1, 2], nodeLen := fun n => if n = 1 then 4 else 6, edges := [],
    paths := [("chr1", [⟨1, false⟩, ⟨2, false⟩])] }

lemma lenBefore_add_le (g : Graph) :
    ∀ (steps : List Handle) (k : Nat) (h : Handle),
      steps[k]? = some h →
      lenBefore g steps k + g.nodeLen h.id ≤ pathLen g steps := by
  intro steps
  induction steps with
  | nil => intro k h hk; simp at hk
  | cons h0 rest ih =>
    intro k h hk
    cases k with
    | zero =>
      simp at hk
      subst hk
      simp [lenBefore, pathLen]
    | succ j =>
      simp at hk
      have := ih j h hk
      simp [lenBefore, pathLen]
      omega

lemma projectLoop_first_containing (g : Graph) (pos : Nat) :
    ∀ (steps : List Handle) (cur k : Nat) (h : Handle),
      steps[k]? = some h →
      cur + lenBefore g steps k ≤ pos →
      pos < cur + lenBefore g steps k + g.nodeLen h.id →
      projectLoop g pos steps cur =
        some ⟨h.id,
              if h.isRev then g.nodeLen h.id - 1 - (pos - (cur + lenBefore g steps k))
              else pos - (cur + lenBefore g steps k),
              !h.isRev⟩ := by
  intro steps
  induction steps with
  | nil => intro cur k h hk; simp at hk
  | cons h0 rest ih =>
    intro cur k h hk hlo hhi
    cases k with
    | zero =>
      simp at hk
      subst hk
      simp only [lenBefore, Nat.add_zero] at hlo hhi ⊢
      simp [projectLoop, hhi]
    | succ j =>
      simp at hk
      simp only [lenBefore] at hlo hhi ⊢
      have hskip : ¬ pos < cur + g.nodeLen h0.id := by omega
      have hrec := ih (cur + g.nodeLen h0.id) j h hk (by omega) (by omega)
      have harith : cur + g.nodeLen h0.id + lenBefore g rest j =
          cur + (g.nodeLen h0.id + lenBefore g rest j) := by omega
      rw [harith] at hrec
      simp only [projectLoop, hskip, if_false]
      exact hrec

lemma projectLoop_isSome (g : Graph) (pos : Nat) :
    ∀ (steps : List Handle) (cur : Nat),
      cur ≤ pos →
      pos < cur + pathLen g steps →
      (projectLoop g pos steps cur).isSome := by
  intro steps
  induction steps with
  | nil => intro cur h1 h2; simp [pathLen] at h2; omega
  | cons h0 rest ih =>
    intro cur h1 h2
    simp only [pathLen] at h2
    by_cases hc : pos < cur + g.nodeLen h0.id
    · simp [projectLoop, hc]
    · simp only [projectLoop, hc, if_false]
      exact ih (cur + g.nodeLen h0.id) (by omega) (by omega)

/-- C1: for every loaded graph, path, and in-range offset, `project` returns
the coordinate of the step containing the offset: if that step's handle is
reverse-oriented the intra-node offset is mirrored to
`node_length - 1 - offset_in_step` and the strand flag is the negation of the
handle's reverse flag; if forward-oriented the offset passes through
unchanged and the strand flag is true. -/
theorem c1_project_step_formula (g : Graph) (name : String) (pos k : Nat)
    (steps : List Handle) (h : Handle)
    (hp : pathSteps g name = some steps)
    (hk : steps[k]? = some h)
    (hlo : lenBefore g steps k ≤ pos)
    (hhi : pos < lenBefore g steps k + g.nodeLen h.id) :
    graph_project g name pos =
      some ⟨h.id,
            if h.isRev then g.nodeLen h.id - 1 - (pos - lenBefore g steps k)
            else pos - lenBefore g steps k,
            !h.isRev⟩ := by
  have hlt : pos < pathLen g steps :=
    lt_of_lt_of_le hhi (lenBefore_add_le g steps k h hk)
  have hloop := projectLoop_first_containing g pos steps 0 k h hk (by omega) (by omega)
  simp only [Nat.zero_add] at hloop
  simp [graph_project, hp, hlt, hloop]

/-- Witness for C1: in `gW1`, projecting offset 1 on path "p" (a single
reverse traversal of node 7, length 4) yields node 7, mirrored offset
`4 - 1 - 1 = 2`, strand flag `false`. -/
theorem c1_project_step_formula_witness :
    pathSteps gW1 "p" = some [⟨7, true⟩] ∧
    lenBefore gW1 [⟨7, true⟩] 0 ≤ 1 ∧
    1 < lenBefore gW1 [⟨7, true⟩] 0 + gW1.nodeLen 7 ∧
    graph_project gW1 "p" 1 = some ⟨7, 2, false⟩ :=
  ⟨by decide, by decide, by decide,
   c1_project_step_formula gW1 "p" 1 0 [⟨7, true⟩] ⟨7, true⟩
     (by decide) (by decide) (by decide) (by decide)⟩

/-- C2: `project` returns the "not found" result exactly when the path name
does not name an existing path or the offset is at least the path's total
length, path length being the sum of node lengths over all its steps. -/
theorem c2_project_none_iff (g : Graph) (name : String) (pos : Nat) :
    graph_project g name pos = none ↔
      (pathSteps g name = none ∨
        ∃ steps, pathSteps g name = some steps ∧ pathLen g steps ≤ pos) := by
  cases hp : pathSteps g name with
  | none => simp [graph_project, hp]
  | some steps =>
    by_cases hlt : pos < pathLen g steps
    · have hs := projectLoop_isSome g pos steps 0 (Nat.zero_le pos) (by omega)
      simp only [graph_project, hp, if_pos hlt]
      constructor
      · intro hnone
        rw [hnone] at hs
        simp at hs
      · rintro (hbad | ⟨s, hs', hle⟩)
        · exact (Option.some_ne_none steps hbad).elim
        · injection hs' with he
          subst he
          omega
    · have hval : graph_project g name pos = none := by
        simp [graph_project, hp, hlt]
      rw [hval]
      constructor
      · intro _
        exact Or.inr ⟨steps, rfl, Nat.le_of_not_lt hlt⟩
      · intro _
        rfl

/-- C3: on a path that revisits a node, `project` reports the first step in
path order whose span `[running_length, running_length + node_length)`
contains the offset; no later qualifying step changes the result. -/
theorem c3_project_first_qualifying_step (g : Graph) (name : String) (pos k : Nat)
    (steps : List Handle) (h : Handle)
    (hp : pathSteps g name = some steps)
    (hrevisit : ¬ (steps.map (fun s => s.id)).Nodup)
    (hk : steps[k]? = some h)
    (hlo : lenBefore g steps k ≤ pos)
    (hhi : pos < lenBefore g steps k + g.nodeLen h.id)
    (hfirst : ∀ j, j < k →
      ¬ (lenBefore g steps j ≤ pos ∧ pos < lenBefore g steps (j + 1))) :
    graph_project g name pos =
      some ⟨h.id,
            if h.isRev then g.nodeLen h.id - 1 - (pos - lenBefore g steps k)
            else pos - lenBefore g steps k,
            !h.isRev⟩ := by
  have hlt : pos < pathLen g steps :=
    lt_of_lt_of_le hhi (lenBefore_add_le g steps k h hk)
  have hloop := projectLoop_first_containing g pos steps 0 k h hk (by omega) (by omega)
  simp only [Nat.zero_add] at hloop
  simp [graph_project, hp, hlt, hloop]

/-- Witness for C3: in `gW3`, path "q" visits node 1 (length 3) twice;
offset 4 lies in the second visit's span `[3, 6)`, the first visit's span
`[0, 3)` does not qualify, and the result reports node 1 at offset 1. -/
theorem c3_project_first_qualifying_step_witness :
    pathSteps gW3 "q" = some [⟨1, false⟩, ⟨1, false⟩] ∧
    ¬ (([⟨1, false⟩, ⟨1, false⟩] : List Handle).map (fun s => s.id)).Nodup ∧
    lenBefore gW3 [⟨1, false⟩, ⟨1, false⟩] 1 ≤ 4 ∧
    4 < lenBefore gW3 [⟨1, false⟩, ⟨1, false⟩] 1 + gW3.nodeLen 1 ∧
    (∀ j, j < 1 →
      ¬ (lenBefore gW3 [⟨1, false⟩, ⟨1, false⟩] j ≤ 4 ∧
         4 < lenBefore gW3 [⟨1, false⟩, ⟨1, false⟩] (j + 1))) ∧
    graph_project gW3 "q" 4 = some ⟨1, 1, true⟩ :=
  ⟨by decide, by decide, by decide, by decide, by decide,
   c3_project_first_qualifying_step gW3 "q" 4 1 [⟨1, false⟩, ⟨1, false⟩] ⟨1, false⟩
     (by decide) (by decide) (by decide) (by decide) (by decide) (by decide)⟩

lemma pathLen_eq_sum (g : Graph) :
    ∀ steps : List Handle, (∀ h ∈ steps, hasNode g h.id = true) →
      pathLen g steps = (steps.map (fun h => graph_get_node_len g h.id)).sum := by
  intro steps
  induction steps with
  | nil => intro _; simp [pathLen]
  | cons h0 rest ih =>
    intro hall
    have h0n : hasNode g h0.id = true := hall h0 (by simp)
    have hrest := ih (fun h hm => hall h (by simp [hm]))
    simp [pathLen, graph_get_node_len, h0n, hrest]

/-- C8: `path_length` returns the sum of `node_length` over every step's node
in the path, and 0 when the path name does not exist. -/
theorem c8_path_length_sum (g : Graph) (name : String) :
    (pathSteps g name = none → graph_get_path_length g name = 0) ∧
    (∀ steps, pathSteps g name = some steps →
      (∀ h ∈ steps, hasNode g h.id = true) →
      graph_get_path_length g name =
        (steps.map (fun h => graph_get_node_len g h.id)).sum) := by
  constructor
  · intro hp
    simp [graph_get_path_length, hp]
  · intro steps hp hall
    simp [graph_get_path_length, hp, pathLen_eq_sum g steps hall]

/-- Witness for C8: in `gW8` (spec Scenario A), the length of "chr1" is
`4 + 6 = 10`, the sum of the step node lengths. -/
theorem c8_path_length_sum_witness :
    pathSteps gW8 "chr1" = some [⟨1, false⟩, ⟨2, false⟩] ∧
    (∀ h ∈ ([⟨1, false⟩, ⟨2, false⟩] : List Handle), hasNode gW8 h.id = true) ∧
    graph_get_path_length gW8 "chr1" =
      (([⟨1, false⟩, ⟨2, false⟩] : List Handle).map
        (fun h => graph_get_node_len gW8 h.id)).sum ∧
    graph_get_path_length gW8 "chr1" = 10 :=
  ⟨by decide, by decide,
   (c8_path_length_sum gW8 "chr1").2 [⟨1, false⟩, ⟨2, false⟩] (by decide) (by decide),
   by decide⟩

lemma nextNodeLoop_match_iff (n : Nat) (h : Handle) :
    (h == Handle.mk n false || h == Handle.mk n true) = true ↔ h.id = n := by
  cases h with
  | mk i r => cases r <;> simp [Handle.mk.injEq]

lemma nextNodeLoop_no_match (n : Nat) :
    ∀ steps : List Handle, (∀ h ∈ steps, h.id ≠ n) → nextNodeLoop n steps = -1 := by
  intro steps
  induction steps with
  | nil => intro _; rfl
  | cons h0 rest ih =>
    intro hall
    have hcond : (h0 == Handle.mk n false || h0 == Handle.mk n true) = false := by
      rw [Bool.eq_false_iff]
      intro hc
      exact hall h0 (by simp) ((nextNodeLoop_match_iff n h0).1 hc)
    simp [nextNodeLoop, hcond, ih (fun h hm => hall h (by simp [hm]))]

lemma nextNodeLoop_first_match (n : Nat) :
    ∀ (steps : List Handle) (k : Nat) (h : Handle),
      steps[k]? = some h → h.id = n →
      (∀ j h', j < k → steps[j]? = some h' → h'.id ≠ n) →
      nextNodeLoop n steps =
        (match steps[k + 1]? with
         | some h2 => Int.ofNat h2.id
         | none => -1) := by
  intro steps
  induction steps with
  | nil => intro k h hk; simp at hk
  | cons h0 rest ih =>
    intro k h hk hid hfirst
    cases k with
    | zero =>
      simp at hk
      subst hk
      have hcond : (h0 == Handle.mk n false || h0 == Handle.mk n true) = true :=
        (nextNodeLoop_match_iff n h0).2 hid
      cases rest with
      | nil => simp [nextNodeLoop, hcond]
      | cons h2 rest' => simp [nextNodeLoop, hcond]
    | succ j =>
      simp at hk
      have h0ne : h0.id ≠ n := hfirst 0 h0 (Nat.succ_pos j) (by simp)
      have hcond : (h0 == Handle.mk n false || h0 == Handle.mk n true) = false := by
        rw [Bool.eq_false_iff]
        intro hc
        exact h0ne ((nextNodeLoop_match_iff n h0).1 hc)
      have hrec := ih j h hk hid
        (fun j' h' hj' hg => hfirst (j' + 1) h' (by omega) (by simpa using hg))
      simp only [nextNodeLoop, hcond, Bool.false_eq_true, if_false]
      simpa using hrec

/-- C6: `next_node_on_path` returns `-1` when the path or node is unknown;
otherwise it scans the path's steps in order, a step matching when its handle
equals the node in either orientation, and returns the node id of the step
immediately following the first matching step — `-1` when the first matching
step is the last step or no step matches. -/
theorem c6_next_node_on_path (g : Graph) (name : String) (n : Nat) :
    ((hasPath g name = false ∨ hasNode g n = false) →
      graph_get_next_node_on_path g name n = -1) ∧
    (∀ steps, pathSteps g name = some steps → hasNode g n = true →
      ((∀ h ∈ steps, h.id ≠ n) → graph_get_next_node_on_path g name n = -1) ∧
      (∀ k h, steps[k]? = some h → h.id = n →
        (∀ j h', j < k → steps[j]? = some h' → h'.id ≠ n) →
        graph_get_next_node_on_path g name n =
          (match steps[k + 1]? with
           | some h2 => Int.ofNat h2.id
           | none => -1))) := by
  constructor
  · intro hor
    cases hp : pathSteps g name with
    | none => simp [graph_get_next_node_on_path, hp]
    | some steps =>
      rcases hor with hfalse | hn
      · rw [hasPath, hp] at hfalse
        simp at hfalse
      · simp [graph_get_next_node_on_path, hp, hn]
  · intro steps hp hn
    constructor
    · intro hall
      simp [graph_get_next_node_on_path, hp, hn, nextNodeLoop_no_match n steps hall]
    · intro k h hk hid hfirst
      have hrec := nextNodeLoop_first_match n steps k h hk hid hfirst
      simpa [graph_get_next_node_on_path, hp, hn] using hrec

/-- Witness for C6: in `gW6`, path "w" visits node 1 in reverse (matched via
the reverse orientation) and the immediately following step is node 2, so
`next_node_on_path` returns 2. -/
theorem c6_next_node_on_path_witness :
    pathSteps gW6 "w" = some [⟨1, true⟩, ⟨2, false⟩] ∧
    hasNode gW6 1 = true ∧
    graph_get_next_node_on_path gW6 "w" 1 = 2 :=
  ⟨by decide, by decide,
   ((c6_next_node_on_path gW6 "w" 1).2 [⟨1, true⟩, ⟨2, false⟩] (by decide) (by decide)).2
     0 ⟨1, true⟩ (by decide) (by decide)
     (fun j h' hj _ => absurd hj (Nat.not_lt_zero j))⟩

lemma mem_followEdgesOut (g : Graph) (x y : Handle)
    (he : (x, y) ∈ g.edges) : y ∈ followEdgesOut g x := by
  simp only [followEdgesOut, List.mem_map, List.mem_filter]
  exact ⟨(x, y), ⟨he, by simp⟩, rfl⟩

lemma mem_followEdgesIn (g : Graph) (x y : Handle)
    (he : (x, y) ∈ g.edges) : x ∈ followEdgesIn g y := by
  simp only [followEdgesIn, List.mem_map, List.mem_filter]
  exact ⟨(x, y), ⟨he, by simp⟩, rfl⟩

/-- C7: for a graph with an edge from node `a`'s forward face to node `b`
with orientation `r`, `successors` and `predecessors` are inverse relations:
`b` appears in `successors a` via the forward face and `a` appears in
`predecessors b` via the corresponding face, with the orientation flags
assigned consistently (both descriptors carry `!r` in the remaining flag). -/
theorem c7_successors_predecessors_inverse (g : Graph) (a b : Nat) (r : Bool)
    (ha : hasNode g a = true) (hb : hasNode g b = true)
    (he : (Handle.mk a false, Handle.mk b r) ∈ g.edges) :
    Edge.mk b true (!r) ∈ graph_get_successors g a ∧
    Edge.mk a true (!r) ∈ graph_get_predecessors g b := by
  constructor
  · have hy := mem_followEdgesOut g ⟨a, false⟩ ⟨b, r⟩ he
    simp only [graph_get_successors, ha, if_pos, List.mem_append, List.mem_map]
    exact Or.inl ⟨⟨b, r⟩, hy, rfl⟩
  · have hx := mem_followEdgesIn g ⟨a, false⟩ ⟨b, r⟩ he
    cases r with
    | false =>
      simp only [graph_get_predecessors, hb, if_pos, List.mem_append, List.mem_map]
      exact Or.inl ⟨⟨a, false⟩, hx, rfl⟩
    | true =>
      simp only [graph_get_predecessors, hb, if_pos, List.mem_append, List.mem_map]
      exact Or.inr ⟨⟨a, false⟩, hx, rfl⟩

/-- Witness for C7: in `gW7`, the forward-forward edge (1 → 2) yields the
successor descriptor (2, true, true) of node 1 and the predecessor
descriptor (1, true, true) of node 2. -/
theorem c7_successors_predecessors_inverse_witness :
    hasNode gW7 1 = true ∧ hasNode gW7 2 = true ∧
    (Handle.mk 1 false, Handle.mk 2 false) ∈ gW7.edges ∧
    (Edge.mk 2 true true ∈ graph_get_successors gW7 1 ∧
     Edge.mk 1 true true ∈ graph_get_predecessors gW7 2) :=
  ⟨by decide, by decide, by decide,
   c7_successors_predecessors_inverse gW7 1 2 false (by decide) (by decide) (by decide)⟩

/-- C10: in the lists returned by `successors` and `predecessors`, every
edge descriptor discovered from the node's forward face precedes every edge
descriptor discovered from its reverse face (in `successors` the face is
recorded in the second field, in `predecessors` in the third). -/
theorem c10_forward_face_first (g : Graph) (n : Nat) :
    (∃ A B, graph_get_successors g n = A ++ B ∧
      (∀ e ∈ A, e.viaForward = true) ∧ (∀ e ∈ B, e.viaForward = false)) ∧
    (∃ A B, graph_get_predecessors g n = A ++ B ∧
      (∀ e ∈ A, e.neighborForward = true) ∧ (∀ e ∈ B, e.neighborForward = false)) := by
  by_cases hn : hasNode g n = true
  · constructor
    · refine ⟨(followEdgesOut g ⟨n, false⟩).map (fun nx => ⟨nx.id, true, !nx.isRev⟩),
              (followEdgesOut g ⟨n, true⟩).map (fun nx => ⟨nx.id, false, !nx.isRev⟩),
              by simp [graph_get_successors, hn], ?_, ?_⟩
      · intro e he
        simp only [List.mem_map] at he
        obtain ⟨x, _, hxe⟩ := he
        rw [← hxe]
      · intro e he
        simp only [List.mem_map] at he
        obtain ⟨x, _, hxe⟩ := he
        rw [← hxe]
    · refine ⟨(followEdgesIn g ⟨n, false⟩).map (fun pv => ⟨pv.id, !pv.isRev, true⟩),
              (followEdgesIn g ⟨n, true⟩).map (fun pv => ⟨pv.id, !pv.isRev, false⟩),
              by simp [graph_get_predecessors, hn], ?_, ?_⟩
      · intro e he
        simp only [List.mem_map] at he
        obtain ⟨x, _, hxe⟩ := he
        rw [← hxe]
      · intro e he
        simp only [List.mem_map] at he
        obtain ⟨x, _, hxe⟩ := he
        rw [← hxe]
  · exact ⟨⟨[], [], by simp [graph_get_successors, hn], by simp, by simp⟩,
           ⟨[], [], by simp [graph_get_predecessors, hn], by simp, by simp⟩⟩

lemma mem_dedupFrom_cons :
    ∀ (l : List String) (prev x : String),
      x ∈ prev :: dedupFrom prev l ↔ x ∈ prev :: l := by
  intro l
  induction l with
  | nil => intro prev x; simp [dedupFrom]
  | cons b rest ih =>
    intro prev x
    by_cases hb : (b == prev) = true
    · have hbe : b = prev := by simpa using hb
      rw [show dedupFrom prev (b :: rest) = dedupFrom prev rest by
        simp [dedupFrom, hb]]
      rw [ih prev x]
      subst hbe
      simp only [List.mem_cons]
      tauto
    · rw [show dedupFrom prev (b :: rest) = b :: dedupFrom b rest by
        simp [dedupFrom, hb]]
      have ihb := ih b x
      simp only [List.mem_cons] at ihb ⊢
      tauto

lemma mem_dedupAdj (l : List String) (x : String) : x ∈ dedupAdj l ↔ x ∈ l := by
  cases l with
  | nil => simp [dedupAdj]
  | cons a rest => exact mem_dedupFrom_cons rest a x

lemma mem_sortDedup (l : List String) (x : String) : x ∈ sortDedup l ↔ x ∈ l := by
  rw [sortDedup, mem_dedupAdj]
  exact (List.perm_insertionSort (· ≤ ·) l).mem_iff

lemma sorted_dedupFrom :
    ∀ (l : List String) (prev : String),
      l.Sorted (· ≤ ·) → (∀ x ∈ l, prev ≤ x) →
      (prev :: dedupFrom prev l).Sorted (· < ·) := by
  intro l
  induction l with
  | nil => intro prev _ _; simp [dedupFrom]
  | cons b rest ih =>
    intro prev hs hall
    have hsrest : rest.Sorted (· ≤ ·) := hs.of_cons
    have hble : ∀ x ∈ rest, b ≤ x := fun x hx => (List.sorted_cons.1 hs).1 x hx
    by_cases hb : (b == prev) = true
    · have hbe : b = prev := by simpa using hb
      rw [show dedupFrom prev (b :: rest) = dedupFrom prev rest by
        simp [dedupFrom, hb]]
      exact ih prev hsrest (fun x hx => hbe ▸ hble x hx)
    · have hbne : b ≠ prev := by simpa using hb
      rw [show dedupFrom prev (b :: rest) = b :: dedupFrom b rest by
        simp [dedupFrom, hb]]
      have hrec := ih b hsrest hble
      rw [List.sorted_cons]
      refine ⟨?_, hrec⟩
      intro x hx
      have hpb : prev < b := lt_of_le_of_ne (hall b (by simp)) (Ne.symm hbne)
      rcases List.mem_cons.1 hx with rfl | hx'
      · exact hpb
      · have hxb : x ∈ b :: rest :=
          (mem_dedupFrom_cons rest b x).1 (List.mem_cons_of_mem b hx')
        rcases List.mem_cons.1 hxb with rfl | hxr
        · exact hpb
        · exact lt_of_lt_of_le hpb (hble x hxr)

lemma sortDedup_sorted_nodup (l : List String) :
    (sortDedup l).Sorted (· ≤ ·) ∧ (sortDedup l).Nodup := by
  have hsorted := List.sorted_insertionSort (· ≤ ·) l
  rw [sortDedup]
  cases hs : List.insertionSort (· ≤ ·) l with
  | nil => simp [dedupAdj]
  | cons a rest =>
    rw [hs] at hsorted
    have hlt := sorted_dedupFrom rest a hsorted.of_cons
      (fun x hx => (List.sorted_cons.1 hsorted).1 x hx)
    rw [show dedupAdj (a :: rest) = a :: dedupFrom a rest from rfl]
    exact ⟨hlt.imp (fun hab => le_of_lt hab), hlt.imp (fun hab => ne_of_lt hab)⟩

/-- C4: for every graph and every choice of endpoints and orientations, the
list returned by `paths_on_edge` is sorted lexicographically ascending and
contains no duplicate path names. -/
theorem c4_paths_on_edge_sorted_nodup (g : Graph) (from_node : Nat)
    (from_is_forward : Bool) (to_node : Nat) (to_is_forward : Bool) :
    (graph_get_paths_on_edge g from_node from_is_forward to_node to_is_forward).Sorted
        (· ≤ ·) ∧
    (graph_get_paths_on_edge g from_node from_is_forward to_node to_is_forward).Nodup := by
  rw [graph_get_paths_on_edge]
  by_cases hn : (hasNode g from_node && hasNode g to_node) = true
  · rw [if_pos hn]
    exact sortDedup_sorted_nodup _
  · rw [if_neg hn]
    simp

lemma mem_edgeHits (fromN : Nat) (toH : Handle) (name nm : String) :
    ∀ steps : List Handle,
      nm ∈ edgeHits fromN toH name steps ↔
        (nm = name ∧ ∃ l1 h h2 l2, steps = l1 ++ h :: h2 :: l2 ∧
          h.id = fromN ∧ h2 = toH) := by
  intro steps
  induction steps with
  | nil =>
    constructor
    · intro hx; simp [edgeHits] at hx
    · rintro ⟨-, l1, h, h2, l2, heq, -, -⟩
      cases l1 <;> simp at heq
  | cons a tail ih =>
    cases tail with
    | nil =>
      constructor
      · intro hx; simp [edgeHits] at hx
      · rintro ⟨-, l1, h, h2, l2, heq, -, -⟩
        cases l1 with
        | nil => simp at heq
        | cons x l1' =>
          have := congrArg List.length heq
          simp [List.length_append] at this
    | cons b rest =>
      rw [show edgeHits fromN toH name (a :: b :: rest) =
            (if a.id == fromN && b == toH then [name] else [])
              ++ edgeHits fromN toH name (b :: rest) from rfl]
      rw [List.mem_append]
      constructor
      · rintro (hin | hin)
        · by_cases hc : (a.id == fromN && b == toH) = true
          · rw [if_pos hc] at hin
            simp only [List.mem_singleton] at hin
            subst hin
            have hcc : a.id = fromN ∧ b = toH := by simpa using hc
            exact ⟨rfl, [], a, b, rest, rfl, hcc.1, hcc.2⟩
          · rw [if_neg hc] at hin
            simp at hin
        · obtain ⟨hnm, l1, h, h2, l2, heq, hh, hh2⟩ := ih.1 hin
          exact ⟨hnm, a :: l1, h, h2, l2, by simp [heq], hh, hh2⟩
      · rintro ⟨hnm, l1, h, h2, l2, heq, hh, hh2⟩
        cases l1 with
        | nil =>
          simp only [List.nil_append, List.cons.injEq] at heq
          obtain ⟨rfl, rfl, rfl⟩ := heq
          left
          have hc : (a.id == fromN && b == toH) = true := by simp [hh, hh2]
          rw [if_pos hc]
          simp [hnm]
        | cons x l1' =>
          right
          simp only [List.cons_append, List.cons.injEq] at heq
          exact ih.2 ⟨hnm, l1', h, h2, l2, heq.2, hh, hh2⟩

lemma mem_collectOnEdge (fromN : Nat) (toH : Handle) (nm : String) :
    ∀ ps : List (String × List Handle),
      nm ∈ collectOnEdge fromN toH ps ↔
        ∃ p ∈ ps, p.1 = nm ∧ ∃ l1 h h2 l2, p.2 = l1 ++ h :: h2 :: l2 ∧
          h.id = fromN ∧ h2 = toH := by
  intro ps
  induction ps with
  | nil => simp [collectOnEdge]
  | cons p rest ih =>
    rw [show collectOnEdge fromN toH (p :: rest) =
          edgeHits fromN toH p.1 p.2 ++ collectOnEdge fromN toH rest from rfl]
    rw [List.mem_append, mem_edgeHits, ih]
    constructor
    · rintro (⟨hnm, hdec⟩ | ⟨q, hq, hq1, hqdec⟩)
      · exact ⟨p, by simp, hnm.symm, hdec⟩
      · exact ⟨q, by simp [hq], hq1, hqdec⟩
    · rintro ⟨q, hq, hq1, hqdec⟩
      rcases List.mem_cons.1 hq with rfl | hq'
      · exact Or.inl ⟨hq1.symm, hqdec⟩
      · exact Or.inr ⟨q, hq', hq1, hqdec⟩

/-- Counterexample to C5 as stated: in `gC5`, path "P" = [(1, reverse),
(2, forward)] contains no pair of consecutive steps whose handles *exactly
match* (1, forward) then (2, forward) — the spec-literal reading
(`pathsOnEdgeExact`) is empty — yet `graph_get_paths_on_edge` returns ["P"],
because the store's step iteration over the from handle is strand-agnostic
and the code never re-checks the from step's orientation. -/
theorem c5_counterexample :
    graph_get_paths_on_edge gC5 1 true 2 true = ["P"] ∧
    pathsOnEdgeExact gC5 1 true 2 true = [] := by
  constructor <;> decide

/-- C5 (amended): when both endpoint nodes exist, `paths_on_edge` returns
exactly the names of paths containing two consecutive steps where the first
step's *node* is the from node (its orientation is not constrained) and the
second step's handle exactly matches (to_node, to_orientation); when either
endpoint node is unknown the result is empty. -/
theorem c5_paths_on_edge_membership (g : Graph) (from_node to_node : Nat)
    (from_is_forward to_is_forward : Bool) :
    ((hasNode g from_node = false ∨ hasNode g to_node = false) →
      graph_get_paths_on_edge g from_node from_is_forward to_node to_is_forward = []) ∧
    (hasNode g from_node = true → hasNode g to_node = true → ∀ nm,
      nm ∈ graph_get_paths_on_edge g from_node from_is_forward to_node to_is_forward ↔
        ∃ p ∈ g.paths, p.1 = nm ∧
          ∃ l1 h h2 l2, p.2 = l1 ++ h :: h2 :: l2 ∧
            h.id = from_node ∧ h2 = Handle.mk to_node (!to_is_forward)) := by
  constructor
  · intro hor
    have hcond : (hasNode g from_node && hasNode g to_node) = false := by
      rcases hor with hf | ht
      · simp [hf]
      · simp [ht]
    rw [graph_get_paths_on_edge, hcond]
    simp
  · intro hf ht nm
    have hcond : (hasNode g from_node && hasNode g to_node) = true := by
      simp [hf, ht]
    rw [graph_get_paths_on_edge, hcond]
    simp only [if_pos]
    rw [mem_sortDedup]
    exact mem_collectOnEdge from_node ⟨to_node, !to_is_forward⟩ nm g.paths

/-- Witness for the amended C5: in `gC5` both nodes exist and "P" is a member
of `paths_on_edge(1, forward, 2, forward)` because its first step is on node
1 (in reverse) and its second step exactly matches (2, forward). -/
theorem c5_paths_on_edge_membership_witness :
    hasNode gC5 1 = true ∧ hasNode gC5 2 = true ∧
    ("P" ∈ graph_get_paths_on_edge gC5 1 true 2 true ↔
      ∃ p ∈ gC5.paths, p.1 = "P" ∧
        ∃ l1 h h2 l2, p.2 = l1 ++ h :: h2 :: l2 ∧
          h.id = 1 ∧ h2 = Handle.mk 2 (!true)) :=
  ⟨by decide, by decide,
   (c5_paths_on_edge_membership gC5 1 2 true true).2 (by decide) (by decide) "P"⟩

/-- C9: `load` returns the absent handle when the resource cannot be opened;
on any load the result is either a wrapper around a fully-formed graph
produced by the store's deserializer or the same load failure — never a
partial or half-loaded graph — including when deserialization inside the
store fails. -/
theorem c9_load_all_or_nothing (deserialize : Content → Option Graph)
    (res : Option Content) :
    (res = none → load_graph deserialize res = none) ∧
    (∀ w, load_graph deserialize res = some w →
      ∃ c g, res = some c ∧ deserialize c = some g ∧ w = ⟨g⟩) ∧
    (load_graph deserialize res = none ↔
      (res = none ∨ ∃ c, res = some c ∧ deserialize c = none)) := by
  refine ⟨?_, ?_, ?_⟩
  · intro hres
    rw [hres]
    rfl
  · intro w hw
    cases res with
    | none => simp [load_graph] at hw
    | some c =>
      cases hd : deserialize c with
      | none => simp [load_graph, hd] at hw
      | some g =>
        simp [load_graph, hd] at hw
        exact ⟨c, g, rfl, hd, hw.symm⟩
  · cases res with
    | none => simp [load_graph]
    | some c =>
      cases hd : deserialize c with
      | none => simp [load_graph, hd]
      | some g => simp [load_graph, hd]

/-- Witness for C9: with a deserializer that always fails, an unopenable
resource loads to the absent handle. -/
theorem c9_load_all_or_nothing_witness :
    load_graph (fun _ => (none : Option Graph)) (none : Option Content) = none :=
  (c9_load_all_or_nothing (fun _ => none) none).1 rfl
